import Mathlib

/-
Verification of the jade-ecosystem import-rewriting scripts
(src/update-imports-sprint23.py and src/update-imports-sprint24.py).

Both scripts hold a fixed list of (regex, replacement) pairs named
patterns.  Every regex in those lists is a literal string except for the
two character classes, each of which matches exactly one quote
character (either a single or a double quote).  We embed such a regex
as a Rule: the literal text before the first quote class, the literal
module path between the two quote classes, and the literal replacement
text.  A match of the regex at the head of a character list is exactly
the shape  pre ++ q1 :: path ++ q2 :: rest  with q1 and q2 quote
characters.

re.sub replaces every non-overlapping match, scanning left to right:
at each position, if the pattern matches, the match is consumed and
the replacement emitted; otherwise one character is emitted and the
scan advances by one.  reSub below implements exactly that (via a fuel
parameter to keep the recursion structural, with fuel given by the
length of the input, which is always sufficient since a match consumes
at least two characters).
-/

namespace JadeImports

/-- The two characters matched by the quote character class in the scripts. -/
def quoteChars : List Char := ['\x27', '"']

/-- A character is matched by the quote class of the regexes. -/
def isQuote (c : Char) : Bool := c = '\x27' || c = '"'

/-- Embedding of one entry of the scripts' patterns lists: literal text
before the first quote class, the module path between the classes, and
the literal replacement text. -/
structure Rule where
  pre : List Char
  path : List Char
  repl : List Char
deriving DecidableEq, Repr

/-- Length of any match of a rule: the literal parts plus the two quotes. -/
def matchLen (r : Rule) : Nat := r.pre.length + r.path.length + 2

/-- The full text of a match of rule r whose quote class picked q1 and q2. -/
def matchStr (r : Rule) (q1 q2 : Char) : List Char :=
  r.pre ++ q1 :: (r.path ++ [q2])

/-- Result of scanning a rule against the head of a character list:
either a definite match (with the remaining input), a definite mismatch
found within the input, or the input ran out while still compatible. -/
inductive ScanRes where
  | matched (rest : List Char)
  | failed
  | exhausted
deriving DecidableEq, Repr

/-- Scan a literal against the head of the input. -/
def scanLit : List Char → List Char → ScanRes
  | [], l => .matched l
  | _ :: _, [] => .exhausted
  | p :: ps, c :: cs => if c = p then scanLit ps cs else .failed

/-- Scan a rule against the head of the input. -/
def scanRule (r : Rule) (l : List Char) : ScanRes :=
  match scanLit r.pre l with
  | .failed => .failed
  | .exhausted => .exhausted
  | .matched l1 =>
    match l1 with
    | [] => .exhausted
    | q1 :: l2 =>
      if isQuote q1 then
        match scanLit r.path l2 with
        | .failed => .failed
        | .exhausted => .exhausted
        | .matched l3 =>
          match l3 with
          | [] => .exhausted
          | q2 :: l4 => if isQuote q2 then .matched l4 else .failed
      else .failed

/-- Does the rule match at the head of the input?  If so, return the
input remaining after the match. -/
def matchRule (r : Rule) (l : List Char) : Option (List Char) :=
  match scanRule r l with
  | .matched rest => some rest
  | _ => none

/-- One pass of re.sub with the given rule, fueled.  At each position:
if the pattern matches, emit the replacement and continue after the
match; otherwise emit one character and advance. -/
def reSubFuel (r : Rule) : Nat → List Char → List Char
  | 0, l => l
  | n + 1, l =>
    match matchRule r l with
    | some rest => r.repl ++ reSubFuel r n rest
    | none =>
      match l with
      | [] => []
      | c :: cs => c :: reSubFuel r n cs

/-- re.sub with the given rule: global substitution of every
non-overlapping match, left to right. -/
def reSub (r : Rule) (l : List Char) : List Char := reSubFuel r l.length l

/-- The substitution loop of update_file: apply every rule in order,
each rule rewriting the output of the previous one. -/
def applyRules (rules : List Rule) (content : List Char) : List Char :=
  rules.foldl (fun acc r => reSub r acc) content

/-! ### The two scripts' pattern tables -/

/-- The common replacement text of the five sprint 2.3 rules and the
first five sprint 2.4 rules. -/
def consolidatedRepl : List Char := "from \x27@jade/ui/components\x27".data

def badgeRule : Rule := ⟨"from ".data, "@/components/ui/badge".data, consolidatedRepl⟩

def alertRule : Rule := ⟨"from ".data, "@/components/ui/alert".data, consolidatedRepl⟩

def labelRule : Rule := ⟨"from ".data, "@/components/ui/label".data, consolidatedRepl⟩

def textareaRule : Rule := ⟨"from ".data, "@/components/ui/textarea".data, consolidatedRepl⟩

def selectRule : Rule := ⟨"from ".data, "@/components/ui/select".data, consolidatedRepl⟩

/-- The patterns list of update-imports-sprint23.py, in source order. -/
def sprint23Patterns : List Rule :=
  [badgeRule, alertRule, labelRule, textareaRule, selectRule]

def progressRule : Rule := ⟨"from ".data, "@/components/ui/progress".data, consolidatedRepl⟩

def switchRule : Rule := ⟨"from ".data, "@/components/ui/switch".data, consolidatedRepl⟩

def scrollAreaRule : Rule := ⟨"from ".data, "@/components/ui/scroll-area".data, consolidatedRepl⟩

def tabsRule : Rule := ⟨"from ".data, "@/components/ui/tabs".data, consolidatedRepl⟩

def dropdownMenuRule : Rule := ⟨"from ".data, "@/components/ui/dropdown-menu".data, consolidatedRepl⟩

/-- The dialog rule of update-imports-sprint24.py.  Unlike every other
rule, its literal part before the quote class is a closing brace, a
space, and then the from keyword, and its replacement keeps that
closing brace. -/
def dialogRule : Rule :=
  ⟨"\x7d from ".data, "@/components/ui/dialog".data, "\x7d from \x27@jade/ui/components\x27".data⟩

/-- The patterns list of update-imports-sprint24.py, in source order. -/
def sprint24Patterns : List Rule :=
  [progressRule, switchRule, scrollAreaRule, tabsRule, dropdownMenuRule, dialogRule]

/-! ### Basic facts about scanning and matching -/

theorem scanLit_matched_iff {p l l1 : List Char} :
    scanLit p l = .matched l1 ↔ l = p ++ l1 := by
  induction p generalizing l with
  | nil => simp [scanLit]
  | cons q ps ih =>
    cases l with
    | nil => simp [scanLit]
    | cons c cs =>
      by_cases h : c = q
      · subst h
        simp only [scanLit, if_pos rfl, List.cons_append, List.cons.injEq, true_and]
        exact ih
      · simp only [scanLit, if_neg h, List.cons_append, List.cons.injEq]
        constructor
        · intro hf; exact absurd hf (by simp)
        · rintro ⟨hc, -⟩; exact absurd hc h

theorem scanRule_matched_iff {r : Rule} {l rest : List Char} :
    scanRule r l = .matched rest ↔
      ∃ q1 q2, isQuote q1 = true ∧ isQuote q2 = true ∧
        l = r.pre ++ q1 :: (r.path ++ q2 :: rest) := by
  constructor
  · intro h
    unfold scanRule at h
    cases hpre : scanLit r.pre l with
    | failed => rw [hpre] at h; cases h
    | exhausted => rw [hpre] at h; cases h
    | matched l1 =>
      rw [hpre] at h
      cases l1 with
      | nil => cases h
      | cons q1 l2 =>
        dsimp only at h
        by_cases hq1 : isQuote q1 = true
        · rw [if_pos hq1] at h
          cases hpath : scanLit r.path l2 with
          | failed => rw [hpath] at h; cases h
          | exhausted => rw [hpath] at h; cases h
          | matched l3 =>
            rw [hpath] at h
            cases l3 with
            | nil => cases h
            | cons q2 l4 =>
              dsimp only at h
              by_cases hq2 : isQuote q2 = true
              · rw [if_pos hq2] at h
                cases h
                refine ⟨q1, q2, hq1, hq2, ?_⟩
                have h2 : l2 = r.path ++ q2 :: rest := scanLit_matched_iff.1 hpath
                have h1 : l = r.pre ++ q1 :: l2 := scanLit_matched_iff.1 hpre
                rw [h1, h2]
              · rw [if_neg hq2] at h; cases h
        · rw [if_neg hq1] at h; cases h
  · rintro ⟨q1, q2, hq1, hq2, hl⟩
    have hpre : scanLit r.pre l = .matched (q1 :: (r.path ++ q2 :: rest)) :=
      scanLit_matched_iff.2 hl
    have hpath : scanLit r.path (r.path ++ q2 :: rest) = .matched (q2 :: rest) :=
      scanLit_matched_iff.2 rfl
    unfold scanRule
    rw [hpre]
    dsimp only
    rw [if_pos hq1, hpath]
    dsimp only
    rw [if_pos hq2]

theorem matchRule_some_iff {r : Rule} {l rest : List Char} :
    matchRule r l = some rest ↔ scanRule r l = .matched rest := by
  unfold matchRule
  cases h : scanRule r l <;> simp

theorem matchRule_shape {r : Rule} {l rest : List Char} :
    matchRule r l = some rest ↔
      ∃ q1 q2, isQuote q1 = true ∧ isQuote q2 = true ∧
        l = r.pre ++ q1 :: (r.path ++ q2 :: rest) := by
  rw [matchRule_some_iff, scanRule_matched_iff]

theorem matchStr_append (r : Rule) (q1 q2 : Char) (rest : List Char) :
    r.pre ++ q1 :: (r.path ++ q2 :: rest) = matchStr r q1 q2 ++ rest := by
  simp [matchStr]

theorem matchStr_length (r : Rule) (q1 q2 : Char) :
    (matchStr r q1 q2).length = matchLen r := by
  simp [matchStr, matchLen]
  omega

theorem matchRule_length {r : Rule} {l rest : List Char}
    (h : matchRule r l = some rest) : l.length = matchLen r + rest.length := by
  obtain ⟨q1, q2, -, -, hl⟩ := matchRule_shape.1 h
  rw [hl]
  simp [matchLen]
  omega

theorem matchRule_nil (r : Rule) : matchRule r [] = none := by
  obtain ⟨pre, path, repl⟩ := r
  cases pre with
  | nil => rfl
  | cons p ps => rfl

theorem scanLit_failed_append {p l : List Char} (t : List Char)
    (h : scanLit p l = .failed) : scanLit p (l ++ t) = .failed := by
  induction p generalizing l with
  | nil => simp [scanLit] at h
  | cons q ps ih =>
    cases l with
    | nil => simp [scanLit] at h
    | cons c cs =>
      by_cases hc : c = q
      · subst hc
        rw [scanLit, if_pos rfl] at h
        rw [List.cons_append, scanLit, if_pos rfl]
        exact ih h
      · rw [List.cons_append, scanLit, if_neg hc]

theorem scanLit_matched_append {p l l1 : List Char} (t : List Char)
    (h : scanLit p l = .matched l1) : scanLit p (l ++ t) = .matched (l1 ++ t) := by
  have hl : l = p ++ l1 := scanLit_matched_iff.1 h
  apply scanLit_matched_iff.2
  rw [hl, List.append_assoc]

theorem scanRule_failed_append {r : Rule} {s : List Char} (t : List Char)
    (h : scanRule r s = .failed) : scanRule r (s ++ t) = .failed := by
  unfold scanRule at h ⊢
  cases hpre : scanLit r.pre s with
  | failed => rw [scanLit_failed_append t hpre]
  | exhausted => rw [hpre] at h; cases h
  | matched l1 =>
    rw [hpre] at h
    rw [scanLit_matched_append t hpre]
    cases l1 with
    | nil => cases h
    | cons q1 l2 =>
      rw [List.cons_append]
      dsimp only at h ⊢
      by_cases hq1 : isQuote q1 = true
      · rw [if_pos hq1] at h ⊢
        cases hpath : scanLit r.path l2 with
        | failed => rw [scanLit_failed_append t hpath]
        | exhausted => rw [hpath] at h; cases h
        | matched l3 =>
          rw [hpath] at h
          rw [scanLit_matched_append t hpath]
          cases l3 with
          | nil => cases h
          | cons q2 l4 =>
            rw [List.cons_append]
            dsimp only at h ⊢
            by_cases hq2 : isQuote q2 = true
            · rw [if_pos hq2] at h; cases h
            · rw [if_neg hq2]
      · rw [if_neg hq1]

/-! ### Fuel irrelevance and unfolding equations for reSub -/

theorem matchRule_length_pos {r : Rule} {l rest : List Char}
    (h : matchRule r l = some rest) : rest.length + 2 ≤ l.length := by
  have := matchRule_length h
  simp [matchLen] at this
  omega

theorem reSubFuel_congr (r : Rule) :
    ∀ n m l, l.length ≤ n → l.length ≤ m → reSubFuel r n l = reSubFuel r m l := by
  intro n
  induction n with
  | zero =>
    intro m l hn _
    have : l = [] := List.eq_nil_of_length_eq_zero (Nat.le_zero.1 hn)
    subst this
    cases m with
    | zero => rfl
    | succ k => simp [reSubFuel, matchRule_nil]
  | succ n ih =>
    intro m l hn hm
    cases m with
    | zero =>
      have : l = [] := List.eq_nil_of_length_eq_zero (Nat.le_zero.1 hm)
      subst this
      simp [reSubFuel, matchRule_nil]
    | succ k =>
      simp only [reSubFuel]
      cases hmr : matchRule r l with
      | some rest =>
        have hrest := matchRule_length_pos hmr
        have h1 : rest.length ≤ n := by omega
        have h2 : rest.length ≤ k := by omega
        dsimp only
        rw [ih k rest h1 h2]
      | none =>
        dsimp only
        cases l with
        | nil => rfl
        | cons c cs =>
          have h1 : cs.length ≤ n := by simpa using hn
          have h2 : cs.length ≤ k := by simpa using hm
          dsimp only
          rw [ih k cs h1 h2]

theorem reSub_eq_fuel (r : Rule) {n : Nat} {l : List Char} (h : l.length ≤ n) :
    reSub r l = reSubFuel r n l :=
  reSubFuel_congr r l.length n l (Nat.le_refl _) h

theorem reSub_nil (r : Rule) : reSub r [] = [] := rfl

theorem reSub_match {r : Rule} {l rest : List Char} (h : matchRule r l = some rest) :
    reSub r l = r.repl ++ reSub r rest := by
  have hlen := matchRule_length_pos h
  obtain ⟨k, hk⟩ : ∃ k, l.length = k + 1 := ⟨l.length - 1, by omega⟩
  unfold reSub
  rw [hk]
  simp only [reSubFuel, h]
  exact congrArg (fun t => r.repl ++ t) (reSub_eq_fuel r (show rest.length ≤ k by omega)).symm

theorem reSub_skip {r : Rule} {c : Char} {cs : List Char}
    (h : matchRule r (c :: cs) = none) : reSub r (c :: cs) = c :: reSub r cs := by
  unfold reSub
  simp only [List.length_cons, reSubFuel, h]

/-! ### The clean predicate: no match anywhere in a string -/

/-- The rule matches nowhere in l, at no position. -/
def cleanR (r : Rule) (l : List Char) : Prop :=
  ∀ i, matchRule r (l.drop i) = none

theorem cleanR_nil (r : Rule) : cleanR r [] := by
  intro i
  simp [matchRule_nil]

theorem cleanR_head {r : Rule} {l : List Char} (h : cleanR r l) : matchRule r l = none := h 0

theorem cleanR_drop {r : Rule} {l : List Char} (h : cleanR r l) (n : Nat) :
    cleanR r (l.drop n) := by
  intro i
  rw [List.drop_drop]
  first
  | exact h (i + n)
  | exact h (n + i)

theorem cleanR_tail {r : Rule} {c : Char} {cs : List Char} (h : cleanR r (c :: cs)) :
    cleanR r cs := by
  intro i
  exact h (i + 1)

theorem cleanR_cons {r : Rule} {c : Char} {cs : List Char}
    (h0 : matchRule r (c :: cs) = none) (h : cleanR r cs) : cleanR r (c :: cs) := by
  intro i
  cases i with
  | zero => exact h0
  | succ j => exact h j

theorem cleanR_of_bounded {r : Rule} {l : List Char}
    (h : ∀ i, i < l.length → matchRule r (l.drop i) = none) : cleanR r l := by
  intro i
  by_cases hi : i < l.length
  · exact h i hi
  · rw [List.drop_eq_nil_of_le (by omega)]
    exact matchRule_nil r

/-- If a rule is clean on l, a pass of re.sub leaves l unchanged. -/
theorem reSub_of_clean {r : Rule} : ∀ {l : List Char}, cleanR r l → reSub r l = l := by
  intro l
  induction l with
  | nil => intro _; exact reSub_nil r
  | cons c cs ih =>
    intro h
    rw [reSub_skip (cleanR_head h), ih (cleanR_tail h)]

/-! ### Overlap-freeness of the replacement texts

The idempotence and residual-match arguments hinge on two finite
combinatorial facts about a rule r and a replacement text rep:

 * sufOk: a scan of r starting at any position strictly inside rep
   hits a definite mismatch before rep ends, so no match of r can
   start inside an inserted copy of rep, whatever follows it;
 * ovOk: no alignment of rep strictly inside a match of r is
   character-compatible, so no match of r can start before an inserted
   copy of rep and extend into it.

Both are decidable and hold for every rule and replacement pair of
each script, which is checked by decide. -/

def sufOk (r : Rule) (rep : List Char) : Prop :=
  ∀ i, i < rep.length → scanRule r (rep.drop i) = ScanRes.failed

instance (r : Rule) (rep : List Char) : Decidable (sufOk r rep) := by
  unfold sufOk
  exact Nat.decidableBallLT _ _

def ovOk (r : Rule) (rep : List Char) : Prop :=
  ∀ q1 ∈ quoteChars, ∀ q2 ∈ quoteChars, ∀ k, k < matchLen r → 0 < k →
    rep.take (min rep.length ((matchStr r q1 q2).drop k).length) ≠
      ((matchStr r q1 q2).drop k).take (min rep.length ((matchStr r q1 q2).drop k).length)

instance (r : Rule) (rep : List Char) : Decidable (ovOk r rep) := by
  unfold ovOk
  infer_instance

theorem isQuote_mem {c : Char} (h : isQuote c = true) : c ∈ quoteChars := by
  simp only [isQuote, Bool.or_eq_true, decide_eq_true_eq] at h
  simp only [quoteChars, List.mem_cons, List.mem_singleton, List.not_mem_nil, or_false]
  exact h

/-- No match of r can begin strictly inside an inserted copy of rep,
whatever text follows the copy. -/
theorem clean_append_of_suf {r : Rule} {rep : List Char} (hsuf : sufOk r rep)
    {t : List Char} (ht : cleanR r t) : cleanR r (rep ++ t) := by
  intro i
  rw [List.drop_append_eq_append_drop]
  by_cases hi : i < rep.length
  · have : i - rep.length = 0 := by omega
    rw [this, List.drop_zero]
    have hfail : scanRule r (rep.drop i ++ t) = .failed :=
      scanRule_failed_append t (hsuf i hi)
    unfold matchRule
    rw [hfail]
  · have : rep.drop i = [] := List.drop_eq_nil_of_le (by omega)
    rw [this, List.nil_append]
    exact ht (i - rep.length)

/-- Structure of a re.sub output: either nothing matched and the input
is returned unchanged, or the input splits as an untouched head
followed by a leftmost match, and the output is that head, the
replacement, and the recursive rewrite of the remainder. -/
theorem reSub_decomp (r' : Rule) :
    ∀ (l : List Char),
      reSub r' l = l ∨
      ∃ a m rest, l = a ++ m ∧ matchRule r' m = some rest ∧
        reSub r' l = a ++ (r'.repl ++ reSub r' rest) := by
  intro l
  generalize hn : l.length = n
  induction n generalizing l with
  | zero =>
    left
    have : l = [] := List.eq_nil_of_length_eq_zero hn
    rw [this, reSub_nil]
  | succ n ih =>
    cases hm : matchRule r' l with
    | some rest =>
      right
      exact ⟨[], l, rest, rfl, hm, by rw [List.nil_append, reSub_match hm]⟩
    | none =>
      cases l with
      | nil => left; exact reSub_nil r'
      | cons c cs =>
        have hcs : cs.length = n := by simpa using hn
        cases ih cs hcs with
        | inl h => left; rw [reSub_skip hm, h]
        | inr h =>
          right
          obtain ⟨a, m, rest, hsplit, hmr, hout⟩ := h
          refine ⟨c :: a, m, rest, by rw [hsplit, List.cons_append], hmr, ?_⟩
          rw [reSub_skip hm, hout, List.cons_append]

/-- The key no-creation lemma: if r does not match at the head of
c :: l, it still does not match at the head after l is rewritten by a
rule whose replacement satisfies ovOk for r.  A match in the rewritten
list would have to either lie inside text untouched by the rewrite
(hence be a match of the original) or cross into an inserted
replacement copy (excluded by ovOk). -/
theorem skip_no_match {r r' : Rule} (hov : ovOk r r'.repl) {c : Char} {l : List Char}
    (h : matchRule r (c :: l) = none) : matchRule r (c :: reSub r' l) = none := by
  cases hm : matchRule r (c :: reSub r' l) with
  | none => rfl
  | some rest =>
    exfalso
    obtain ⟨q1, q2, hq1, hq2, heq⟩ := matchRule_shape.1 hm
    rw [matchStr_append] at heq
    -- a helper closing the goal whenever the match text is a prefix of c :: l
    have head_match : ∀ tail : List Char, c :: l = matchStr r q1 q2 ++ tail → False := by
      intro tail htail
      have : matchRule r (c :: l) = some tail := by
        apply matchRule_shape.2
        exact ⟨q1, q2, hq1, hq2, by rw [htail, matchStr_append]⟩
      rw [h] at this
      cases this
    cases reSub_decomp r' l with
    | inl hid =>
      rw [hid] at heq
      exact head_match rest heq
    | inr hdec =>
      obtain ⟨a, m, mrest, hsplit, hmr, hout⟩ := hdec
      rw [hout] at heq
      have heq2 : (c :: a) ++ (r'.repl ++ reSub r' mrest) = matchStr r q1 q2 ++ rest := by
        rw [← heq, List.cons_append]
      have hcl : c :: l = (c :: a) ++ m := by rw [hsplit, List.cons_append]
      rcases List.append_eq_append_iff.1 heq2 with ⟨w, hM, hX⟩ | ⟨w, hca, hrest⟩
      · -- the match text extends at least to the end of the untouched head
        cases w with
        | nil =>
          rw [List.append_nil] at hM
          exact head_match m (by rw [hcl, hM])
        | cons wc ws =>
          -- the match text strictly overlaps the inserted replacement copy
          set w := wc :: ws
          have hB : (matchStr r q1 q2).drop (c :: a).length = w := by
            rw [hM, List.drop_left]
          have hk1 : 0 < (c :: a).length := by simp
          have hk2 : (c :: a).length < matchLen r := by
            have := matchStr_length r q1 q2
            rw [hM] at this
            simp only [List.length_append] at this
            have hw : 0 < w.length := by simp [w]
            omega
          have hcontra := hov q1 (isQuote_mem hq1) q2 (isQuote_mem hq2)
            (c :: a).length hk2 hk1
          rw [hB] at hcontra
          apply hcontra
          -- both takes coincide because one of repl and w extends the other
          rcases List.append_eq_append_iff.1 hX with ⟨s, hws, hZ⟩ | ⟨s, hrs, hrest2⟩
          · -- w = repl ++ s : the replacement is a prefix of w
            have hlen : min r'.repl.length w.length = r'.repl.length := by
              rw [hws]
              simp
            rw [hlen, List.take_length, hws, List.take_left]
          · -- repl = w ++ s : w is a prefix of the replacement
            have hlen : min r'.repl.length w.length = w.length := by
              rw [hrs]
              simp
            rw [hlen, List.take_length, hrs, List.take_left]
      · -- the match text lies inside the untouched head
        exact head_match (w ++ m) (by rw [hcl, hca, List.append_assoc])

/-! ### A pass of re.sub leaves no matches behind and destroys none of
the cleanness already established -/

/-- After one pass of re.sub with r, r matches nowhere in the output
(provided r cannot restart inside or across its own replacement). -/
theorem reSub_clean_self {r : Rule} (hsuf : sufOk r r.repl) (hov : ovOk r r.repl) :
    ∀ l : List Char, cleanR r (reSub r l) := by
  intro l
  generalize hn : l.length = n
  induction n using Nat.strong_induction_on generalizing l with
  | _ n ih =>
    cases hm : matchRule r l with
    | some rest =>
      rw [reSub_match hm]
      have hrest : rest.length < n := by
        have := matchRule_length_pos hm
        omega
      exact clean_append_of_suf hsuf (ih rest.length hrest rest rfl)
    | none =>
      cases l with
      | nil => rw [reSub_nil]; exact cleanR_nil r
      | cons c cs =>
        rw [reSub_skip hm]
        have hcs : cs.length < n := by simp at hn; omega
        have htail : cleanR r (reSub r cs) := ih cs.length hcs cs rfl
        exact cleanR_cons (skip_no_match hov hm) htail

/-- A pass of re.sub with another rule r2 cannot create a match of r,
provided r cannot start inside or across the replacement text of r2. -/
theorem reSub_clean_pres {r r2 : Rule} (hsuf : sufOk r r2.repl) (hov : ovOk r r2.repl) :
    ∀ l : List Char, cleanR r l → cleanR r (reSub r2 l) := by
  intro l
  generalize hn : l.length = n
  induction n using Nat.strong_induction_on generalizing l with
  | _ n ih =>
    intro hclean
    cases hm : matchRule r2 l with
    | some rest =>
      rw [reSub_match hm]
      obtain ⟨q1, q2, _, _, hl⟩ := matchRule_shape.1 hm
      have hrest : cleanR r rest := by
        have hdrop : l.drop (matchLen r2) = rest := by
          rw [hl, matchStr_append, List.drop_append_eq_append_drop]
          rw [matchStr_length, Nat.sub_self, List.drop_zero]
          rw [List.drop_eq_nil_of_le (by rw [matchStr_length]), List.nil_append]
        have := cleanR_drop hclean (matchLen r2)
        rw [hdrop] at this
        exact this
      have hlen : rest.length < n := by
        have := matchRule_length_pos hm
        omega
      exact clean_append_of_suf hsuf (ih rest.length hlen rest rfl hrest)
    | none =>
      cases l with
      | nil => rw [reSub_nil]; exact cleanR_nil r
      | cons c cs =>
        rw [reSub_skip hm]
        have hcs : cs.length < n := by simp at hn; omega
        have htail : cleanR r (reSub r2 cs) := ih cs.length hcs cs rfl (cleanR_tail hclean)
        exact cleanR_cons (skip_no_match hov (cleanR_head hclean)) htail

/-! ### The full rule pipeline -/

/-- The pairwise overlap-freeness condition a script's pattern table
must satisfy: no rule can match starting inside or across any rule's
replacement text.  Checked by decide for both scripts. -/
def rulesOk (rules : List Rule) : Prop :=
  ∀ r ∈ rules, ∀ r2 ∈ rules, sufOk r r2.repl ∧ ovOk r r2.repl

instance (rules : List Rule) : Decidable (rulesOk rules) := by
  unfold rulesOk
  infer_instance

theorem foldl_clean_pres {r : Rule} :
    ∀ (todo : List Rule) (c : List Char),
      (∀ r2 ∈ todo, sufOk r r2.repl ∧ ovOk r r2.repl) → cleanR r c →
      cleanR r (todo.foldl (fun acc ru => reSub ru acc) c) := by
  intro todo
  induction todo with
  | nil => intro c _ hc; exact hc
  | cons r2 ts ih =>
    intro c hok hc
    simp only [List.foldl_cons]
    apply ih
    · intro r3 h3
      exact hok r3 (List.mem_cons_of_mem r2 h3)
    · obtain ⟨hsuf, hov⟩ := hok r2 (List.mem_cons_self _ _)
      exact reSub_clean_pres hsuf hov c hc

/-- After the full pipeline, no rule of the table matches anywhere in
the result. -/
theorem applyRules_clean {rules : List Rule} (hok : rulesOk rules) :
    ∀ (c : List Char), ∀ r ∈ rules, cleanR r (applyRules rules c) := by
  unfold applyRules
  induction rules with
  | nil => intro c r hr; cases hr
  | cons r1 ts ih =>
    intro c r hr
    simp only [List.foldl_cons]
    rcases List.mem_cons.1 hr with hr1 | hrts
    · subst hr1
      obtain ⟨hsuf, hov⟩ := hok r (List.mem_cons_self _ _) r (List.mem_cons_self _ _)
      apply foldl_clean_pres ts (reSub r c)
      · intro r2 h2
        exact hok r (List.mem_cons_self _ _) r2 (List.mem_cons_of_mem _ h2)
      · exact reSub_clean_self hsuf hov c
    · have hok2 : rulesOk ts := by
        intro x hx y hy
        exact hok x (List.mem_cons_of_mem r1 hx) y (List.mem_cons_of_mem r1 hy)
      exact ih hok2 (reSub r1 c) r hrts

/-- On content on which no rule matches anywhere, the pipeline is the
identity. -/
theorem applyRules_of_clean :
    ∀ (rules : List Rule) (c : List Char), (∀ r ∈ rules, cleanR r c) →
      applyRules rules c = c := by
  intro rules
  induction rules with
  | nil => intro c _; rfl
  | cons r1 ts ih =>
    intro c hc
    unfold applyRules
    simp only [List.foldl_cons]
    rw [reSub_of_clean (hc r1 (List.mem_cons_self _ _))]
    exact ih c (fun r hr => hc r (List.mem_cons_of_mem r1 hr))

/-- The sprint 2.3 pattern table is overlap-free: no rule's match can
start inside or across any rule's replacement text. -/
theorem sprint23_rulesOk : rulesOk sprint23Patterns := by decide

/-- The sprint 2.4 pattern table is overlap-free: no rule's match can
start inside or across any rule's replacement text. -/
theorem sprint24_rulesOk : rulesOk sprint24Patterns := by decide

/-- Idempotence of the full pipeline of an overlap-free rule table. -/
theorem applyRules_idem {rules : List Rule} (hok : rulesOk rules) (c : List Char) :
    applyRules rules (applyRules rules c) = applyRules rules c :=
  applyRules_of_clean rules (applyRules rules c) (applyRules_clean hok c)

/-! ### The file-level and run-level model

update_file reads a file (decoding leniently), applies the patterns in
order, writes the file back exactly when the final text differs from
the text read, and returns True exactly in that case.  Any exception
raised while reading or writing is caught inside update_file, reported
together with the file path, and turned into the return value False.

We model a file visited by the run as a FileEntry: its path, its
decoded text content, and two flags saying whether reading and writing
it succeed (a cleared flag models an OSError raised by open, read or
write).  The outcome of update_file on one file is a FileOutcome:
the returned boolean, the content written to disk (none when no write
happened), and whether an error line was printed. -/

structure FileEntry where
  path : List Char
  content : List Char
  readOk : Bool
  writeOk : Bool
deriving DecidableEq, Repr

structure FileOutcome where
  changed : Bool
  written : Option (List Char)
  errorReported : Bool
deriving DecidableEq, Repr

/-- The update_file function of both scripts (they are identical up to
the pattern table, which is passed here as an argument).  Mirrors the
source: read (an exception is caught, reported and yields False);
substitute each pattern in order; if the result differs from the
original, write it back (an exception during the write is caught,
reported and yields False) and return True; otherwise return False
without writing. -/
def updateFile (rules : List Rule) (e : FileEntry) : FileOutcome :=
  if e.readOk then
    let newContent := applyRules rules e.content
    if newContent = e.content then ⟨false, none, false⟩
    else if e.writeOk then ⟨true, some newContent, false⟩
    else ⟨false, none, true⟩
  else ⟨false, none, true⟩

/-- The fixed root directory both scripts scan. -/
def rootPath : List Char := "apps/curated/marketplace-frontend/src".data

/-- The single line printed when the root directory does not exist. -/
def missingRootMsg : List Char := "Directory not found: ".data ++ rootPath

/-- The line printed when update_file catches an exception for a file. -/
def errorMsg (p : List Char) : List Char := "Error processing ".data ++ p

/-- The summary line printed after the loop. -/
def summaryLine (n : Nat) : List Char :=
  "Updated ".data ++ (Nat.repr n).data ++ " files:".data

/-- Observable result of one run of main: the diagnostic lines printed
(in order: per-file error lines, then the summary; the per-path lines
that follow the summary are the changedPaths list rendered relative to
an ancestor directory), the per-file outcomes, and the collected
updated_files list. -/
structure RunResult where
  messages : List (List Char)
  outcomes : List FileOutcome
  changedPaths : List (List Char)
deriving DecidableEq, Repr

/-- The main function of both scripts.  If the root directory does not
exist it prints one line naming it and returns an empty result; its
absence is the only condition that ends the run early.  Otherwise every
enumerated file is processed through update_file, files for which
update_file returned True are collected into updated_files, and a
summary is printed.  The enumeration order of the directory walk is
abstracted as the order of the fs argument. -/
def mainRun (rules : List Rule) (rootExists : Bool) (fs : List FileEntry) : RunResult :=
  if rootExists then
    let outs := fs.map (updateFile rules)
    let changed := (fs.zip outs).filterMap
      (fun pe => if pe.2.changed then some pe.1.path else none)
    let errs := (fs.zip outs).filterMap
      (fun pe => if pe.2.errorReported then some (errorMsg pe.1.path) else none)
    ⟨errs ++ [summaryLine changed.length], outs, changed⟩
  else
    ⟨[missingRootMsg], [], []⟩

theorem zip_self_map {α β : Type} (g : α → β) :
    ∀ (l : List α), l.zip (l.map g) = l.map (fun a => (a, g a)) := by
  intro l
  induction l with
  | nil => rfl
  | cons x xs ih => simp [List.zip_cons_cons, ih]

/-! ### Lenient decoding

update_file opens the file with encoding utf-8 and the errors policy
ignore, so reading can never fail because of malformed bytes: the
decoder drops undecodable bytes and returns the remaining text.  The
decoder itself lives in the language runtime, not in this repository.

Modelled from the spec: the UTF-8 decoder used through the errors
ignore policy of the open call (decoding errors are tolerated by
ignoring invalid byte sequences rather than failing), alongside the
strict decoder it replaces, which rejects the same sequences. -/

/-- A valid UTF-8 continuation byte. -/
def contByte (b : Nat) : Bool := 0x80 ≤ b && b ≤ 0xBF

/-- Valid second byte of a multi-byte sequence headed by b0 (the
constrained ranges exclude overlong forms, surrogates and values above
the last code point). -/
def cont1Ok (b0 b1 : Nat) : Bool :=
  if b0 = 0xE0 then 0xA0 ≤ b1 && b1 ≤ 0xBF
  else if b0 = 0xED then 0x80 ≤ b1 && b1 ≤ 0x9F
  else if b0 = 0xF0 then 0x90 ≤ b1 && b1 ≤ 0xBF
  else if b0 = 0xF4 then 0x80 ≤ b1 && b1 ≤ 0x8F
  else contByte b1

def cp2 (b0 b1 : Nat) : Nat := (b0 - 0xC0) * 0x40 + (b1 - 0x80)

def cp3 (b0 b1 b2 : Nat) : Nat :=
  (b0 - 0xE0) * 0x1000 + (b1 - 0x80) * 0x40 + (b2 - 0x80)

def cp4 (b0 b1 b2 b3 : Nat) : Nat :=
  (b0 - 0xF0) * 0x40000 + (b1 - 0x80) * 0x1000 + (b2 - 0x80) * 0x40 + (b3 - 0x80)

/-- Try to take one valid UTF-8 sequence starting with byte b0; return
the decoded code point and the remaining bytes. -/
def utf8Take (b0 : Nat) (bs : List Nat) : Option (Nat × List Nat) :=
  if b0 < 0x80 then some (b0, bs)
  else if 0xC2 ≤ b0 && b0 ≤ 0xDF then
    match bs with
    | b1 :: bs1 => if contByte b1 then some (cp2 b0 b1, bs1) else none
    | [] => none
  else if 0xE0 ≤ b0 && b0 ≤ 0xEF then
    match bs with
    | b1 :: b2 :: bs2 =>
      if cont1Ok b0 b1 && contByte b2 then some (cp3 b0 b1 b2, bs2) else none
    | _ => none
  else if 0xF0 ≤ b0 && b0 ≤ 0xF4 then
    match bs with
    | b1 :: b2 :: b3 :: bs3 =>
      if cont1Ok b0 b1 && contByte b2 && contByte b3 then some (cp4 b0 b1 b2 b3, bs3)
      else none
    | _ => none
  else none

/-- The lenient decoder: a byte that does not start a valid sequence is
dropped and decoding resumes at the next byte. -/
def decodeCore : Nat → List Nat → List Nat
  | 0, _ => []
  | _ + 1, [] => []
  | n + 1, b0 :: bs =>
    match utf8Take b0 bs with
    | some (cp, rest) => cp :: decodeCore n rest
    | none => decodeCore n bs

/-- The strict decoder: a byte that does not start a valid sequence is
a decoding error. -/
def decodeStrictCore : Nat → List Nat → Option (List Nat)
  | 0, [] => some []
  | 0, _ :: _ => none
  | _ + 1, [] => some []
  | n + 1, b0 :: bs =>
    match utf8Take b0 bs with
    | some (cp, rest) => (decodeStrictCore n rest).map (fun t => cp :: t)
    | none => none

/-- Code points produced by lenient UTF-8 decoding of a byte string. -/
def decodeLenientCp (bs : List Nat) : List Nat := decodeCore bs.length bs

/-- Code points produced by strict UTF-8 decoding, or none on any
malformed sequence. -/
def decodeStrictCp (bs : List Nat) : Option (List Nat) :=
  decodeStrictCore bs.length bs

/-- Reading a file under the errors ignore policy: always succeeds and
returns the leniently decoded text. -/
def readFileLenient (bs : List Nat) : Option (List Char) :=
  some ((decodeLenientCp bs).map Char.ofNat)

/-- Reading the raw bytes of a file and rewriting the decoded text
with a pattern table, as update_file does. -/
def rewriteBytes (rules : List Rule) (bs : List Nat) : List Char :=
  applyRules rules ((decodeLenientCp bs).map Char.ofNat)

/-- Wherever the strict decoder succeeds, the lenient decoder returns
the very same text. -/
theorem decodeCore_agrees :
    ∀ (n : Nat) (bs : List Nat) (s : List Nat),
      decodeStrictCore n bs = some s → decodeCore n bs = s := by
  intro n
  induction n with
  | zero =>
    intro bs s h
    cases bs with
    | nil => cases h; rfl
    | cons b0 bs => cases h
  | succ n ih =>
    intro bs s h
    cases bs with
    | nil => cases h; rfl
    | cons b0 bs =>
      simp only [decodeStrictCore] at h
      simp only [decodeCore]
      cases ht : utf8Take b0 bs with
      | some pr =>
        obtain ⟨cp, rest⟩ := pr
        rw [ht] at h
        dsimp only
        simp only [Option.map_eq_some'] at h
        obtain ⟨t, hst, hs⟩ := h
        rw [ih rest t hst, ← hs]
      | none =>
        rw [ht] at h
        cases h

/-! ### Length bounds: every rule's replacement is shorter than its
match, so a pass that replaces something strictly shrinks the text -/

theorem reSubFuel_length_le {r : Rule} (hr : r.repl.length ≤ matchLen r) :
    ∀ (n : Nat) (l : List Char), (reSubFuel r n l).length ≤ l.length := by
  intro n
  induction n with
  | zero => intro l; exact Nat.le_refl _
  | succ n ih =>
    intro l
    simp only [reSubFuel]
    cases hm : matchRule r l with
    | some rest =>
      dsimp only
      have h1 := matchRule_length hm
      have h2 := ih rest
      simp only [List.length_append]
      omega
    | none =>
      dsimp only
      cases l with
      | nil => simp
      | cons c cs =>
        have := ih cs
        simp only [List.length_cons]
        omega

theorem reSub_length_le {r : Rule} (hr : r.repl.length ≤ matchLen r) (l : List Char) :
    (reSub r l).length ≤ l.length := reSubFuel_length_le hr l.length l

/-- If the rule matches somewhere and its replacement is strictly
shorter than its match, the pass strictly shrinks the text. -/
theorem reSub_length_lt {r : Rule} (hr : r.repl.length < matchLen r) :
    ∀ {l : List Char} {i : Nat} {rest : List Char},
      matchRule r (l.drop i) = some rest → (reSub r l).length < l.length := by
  intro l
  generalize hn : l.length = n
  induction n using Nat.strong_induction_on generalizing l with
  | _ n ih =>
    intro i rest hm
    cases hm0 : matchRule r l with
    | some rest0 =>
      rw [reSub_match hm0]
      have h1 := matchRule_length hm0
      have h2 := reSub_length_le (Nat.le_of_lt hr) rest0
      simp only [List.length_append]
      omega
    | none =>
      cases l with
      | nil =>
        rw [List.drop_nil, matchRule_nil] at hm
        cases hm
      | cons c cs =>
        cases i with
        | zero =>
          rw [List.drop_zero, hm0] at hm
          cases hm
        | succ j =>
          rw [reSub_skip hm0]
          have hcs : cs.length < n := by simp at hn; omega
          have := ih cs.length hcs rfl
            (show matchRule r (cs.drop j) = some rest by simpa using hm)
          simp only [List.length_cons]
          omega

theorem applyRules_length_le :
    ∀ (rules : List Rule), (∀ r ∈ rules, r.repl.length ≤ matchLen r) →
      ∀ (l : List Char), (applyRules rules l).length ≤ l.length := by
  intro rules
  induction rules with
  | nil => intro _ l; exact Nat.le_refl _
  | cons r1 ts ih =>
    intro h l
    unfold applyRules
    simp only [List.foldl_cons]
    have h1 := reSub_length_le (h r1 (List.mem_cons_self _ _)) l
    have h2 := ih (fun r hr => h r (List.mem_cons_of_mem r1 hr)) (reSub r1 l)
    unfold applyRules at h2
    omega

theorem applyRules_cons (r : Rule) (rs : List Rule) (c : List Char) :
    applyRules (r :: rs) c = applyRules rs (reSub r c) := rfl

/-! ### Concrete files used in the claim scenarios -/

/-- The badge import text targeted by the first sprint 2.3 rule. -/
def badgeImport : List Char := "from \x27@/components/ui/badge\x27".data

def badgeFileExample : List Char :=
  "import \x7b Badge \x7d from \x27@/components/ui/badge\x27\nconst x = 1\n".data

def badgeFileExpected : List Char :=
  "import \x7b Badge \x7d from \x27@jade/ui/components\x27\nconst x = 1\n".data

def unrelatedFileExample : List Char :=
  "import X from \x27@/components/ui/unrelated-thing\x27\n".data

def bothImportsEntry : FileEntry :=
  ⟨"src/Both.tsx".data,
   ("import \x7b Badge \x7d from \x27@/components/ui/badge\x27\n" ++
    "import \x7b Select \x7d from \x27@/components/ui/select\x27\n").data,
   true, true⟩

def bothImportsExpected : List Char :=
  ("import \x7b Badge \x7d from \x27@jade/ui/components\x27\n" ++
   "import \x7b Select \x7d from \x27@jade/ui/components\x27\n").data

def nonBracedDialogFile : List Char :=
  "import Dialog from \x27@/components/ui/dialog\x27".data

def bracedDialogFile : List Char :=
  "import \x7b Dialog \x7d from \x27@/components/ui/dialog\x27".data

def exBadgeIndex : List Char := "from \x27@/components/ui/badge/index\x27".data

def exSelector : List Char := "from \x27@/components/ui/selector\x27".data

def exTabsExtra : List Char := "from \x27@/components/ui/tabs-extra\x27".data

theorem badgeImport_match (v : List Char) :
    matchRule badgeRule (badgeImport ++ v) = some v :=
  matchRule_shape.2 ⟨'\x27', '\x27', by decide, by decide, rfl⟩

/-! ### The claims -/

/-- C1: the rewrite is idempotent: for every input string F and for
each script's fixed rule list, applying the full sequential
substitution twice yields the same result as applying it once. -/
theorem claim_C1_idempotent (F : List Char) :
    applyRules sprint23Patterns (applyRules sprint23Patterns F) =
      applyRules sprint23Patterns F ∧
    applyRules sprint24Patterns (applyRules sprint24Patterns F) =
      applyRules sprint24Patterns F :=
  ⟨applyRules_idem sprint23_rulesOk F, applyRules_idem sprint24_rulesOk F⟩

/-- C2: when reading and writing succeed, update_file overwrites the
file exactly when the post-substitution content differs from the
content read, it writes exactly the post-substitution content, and a
file on which no pattern matches is left untouched with no write
issued. -/
theorem claim_C2_write_iff_changed (rules : List Rule) (e : FileEntry)
    (hr : e.readOk = true) (hw : e.writeOk = true) :
    ((updateFile rules e).written.isSome ↔ applyRules rules e.content ≠ e.content) ∧
    ((updateFile rules e).changed = true ↔ applyRules rules e.content ≠ e.content) ∧
    ((updateFile rules e).written =
      if applyRules rules e.content = e.content then none
      else some (applyRules rules e.content)) ∧
    ((∀ r ∈ rules, cleanR r e.content) → updateFile rules e = ⟨false, none, false⟩) := by
  have hstep : updateFile rules e =
      if applyRules rules e.content = e.content then ⟨false, none, false⟩
      else ⟨true, some (applyRules rules e.content), false⟩ := by
    unfold updateFile
    rw [hr, hw]
    simp only [if_true]
  by_cases hne : applyRules rules e.content = e.content
  · rw [hstep, if_pos hne]
    refine ⟨by simp [hne], by simp [hne], by rw [if_pos hne], fun _ => rfl⟩
  · rw [hstep, if_neg hne]
    exact ⟨by simp [hne], by simp [hne], by rw [if_neg hne], fun hcl =>
      absurd (applyRules_of_clean rules e.content hcl) hne⟩

/-- C2 witness: the scenario instantiated on a concrete readable and
writable file containing a badge import. -/
theorem claim_C2_write_iff_changed_witness :
    (FileEntry.mk "src/A.ts".data badgeFileExample true true).readOk = true ∧
    (FileEntry.mk "src/A.ts".data badgeFileExample true true).writeOk = true ∧
    (((updateFile sprint23Patterns (FileEntry.mk "src/A.ts".data badgeFileExample true true)).written.isSome ↔
        applyRules sprint23Patterns badgeFileExample ≠ badgeFileExample) ∧
      ((updateFile sprint23Patterns (FileEntry.mk "src/A.ts".data badgeFileExample true true)).changed = true ↔
        applyRules sprint23Patterns badgeFileExample ≠ badgeFileExample) ∧
      ((updateFile sprint23Patterns (FileEntry.mk "src/A.ts".data badgeFileExample true true)).written =
        if applyRules sprint23Patterns badgeFileExample = badgeFileExample then none
        else some (applyRules sprint23Patterns badgeFileExample)) ∧
      ((∀ r ∈ sprint23Patterns, cleanR r badgeFileExample) →
        updateFile sprint23Patterns (FileEntry.mk "src/A.ts".data badgeFileExample true true) =
          ⟨false, none, false⟩)) :=
  ⟨rfl, rfl,
    claim_C2_write_iff_changed sprint23Patterns
      (FileEntry.mk "src/A.ts".data badgeFileExample true true) rfl rfl⟩

/-- C3 counterexample: a dialog import not preceded by a closing brace
and a space is left completely unchanged by the sprint 2.4 script: that
legacy import is not redirected to the consolidated entry point. -/
theorem claim_C3_counterexample :
    applyRules sprint24Patterns nonBracedDialogFile = nonBracedDialogFile ∧
    applyRules sprint24Patterns nonBracedDialogFile ≠
      "import Dialog from \x27@jade/ui/components\x27".data := by
  exact ⟨by decide, by decide⟩

/-- C3 amended: the sprint 2.4 script rewrites a dialog import only
when the from clause is directly preceded by a closing brace and a
space (the end of a named import list); such imports are redirected to
the consolidated entry point, while a dialog from-import without that
preceding brace never matches the dialog pattern. -/
theorem claim_C3_dialog_amended :
    applyRules sprint24Patterns bracedDialogFile =
      "import \x7b Dialog \x7d from \x27@jade/ui/components\x27".data ∧
    (∀ t : List Char,
      matchRule dialogRule ("\x7d from \x27@/components/ui/dialog\x27".data ++ t) = some t) ∧
    (∀ t : List Char,
      scanRule dialogRule ("from \x27@/components/ui/dialog\x27".data ++ t) =
        ScanRes.failed) := by
  refine ⟨by decide, ?_, ?_⟩
  · intro t
    exact matchRule_shape.2 ⟨'\x27', '\x27', by decide, by decide, rfl⟩
  · intro t
    exact scanRule_failed_append t (by decide)

/-- C4: a read failure, or a write failure on a file whose content
would change, is absorbed inside update_file: the file yields changed
false with an error line naming its path, and the run still processes
every file of the batch through update_file. -/
theorem claim_C4_failure_isolation (rules : List Rule) (fs : List FileEntry)
    (e : FileEntry)
    (hfail : e.readOk = false ∨ (e.writeOk = false ∧ applyRules rules e.content ≠ e.content)) :
    updateFile rules e = ⟨false, none, true⟩ ∧
    (mainRun rules true fs).outcomes = fs.map (updateFile rules) ∧
    (mainRun rules true fs).outcomes.length = fs.length ∧
    (e ∈ fs → errorMsg e.path ∈ (mainRun rules true fs).messages) := by
  have hout : updateFile rules e = ⟨false, none, true⟩ := by
    rcases hfail with hrd | ⟨hw, hne⟩
    · unfold updateFile
      rw [hrd]
      simp
    · cases hrd : e.readOk with
      | false => unfold updateFile; rw [hrd]; simp
      | true =>
        unfold updateFile
        rw [hrd, hw]
        simp [hne]
  refine ⟨hout, rfl, by simp [mainRun], ?_⟩
  intro hmem
  have hmsg : (mainRun rules true fs).messages =
      ((fs.zip (fs.map (updateFile rules))).filterMap
        (fun pe => if pe.2.errorReported then some (errorMsg pe.1.path) else none)) ++
      [summaryLine ((mainRun rules true fs).changedPaths).length] := rfl
  rw [hmsg]
  apply List.mem_append_left
  rw [zip_self_map]
  apply List.mem_filterMap.2
  refine ⟨(e, updateFile rules e), List.mem_map_of_mem _ hmem, ?_⟩
  rw [hout]
  simp

/-- C4 witness: a two-file batch whose second file is unreadable. -/
theorem claim_C4_failure_isolation_witness :
    ((FileEntry.mk "src/Bad.ts".data badgeFileExample false true).readOk = false ∨
      ((FileEntry.mk "src/Bad.ts".data badgeFileExample false true).writeOk = false ∧
        applyRules sprint23Patterns badgeFileExample ≠ badgeFileExample)) ∧
    (updateFile sprint23Patterns (FileEntry.mk "src/Bad.ts".data badgeFileExample false true) =
      ⟨false, none, true⟩ ∧
    (mainRun sprint23Patterns true
      [FileEntry.mk "src/Good.ts".data badgeFileExample true true,
       FileEntry.mk "src/Bad.ts".data badgeFileExample false true]).outcomes =
      [FileEntry.mk "src/Good.ts".data badgeFileExample true true,
       FileEntry.mk "src/Bad.ts".data badgeFileExample false true].map
        (updateFile sprint23Patterns) ∧
    (mainRun sprint23Patterns true
      [FileEntry.mk "src/Good.ts".data badgeFileExample true true,
       FileEntry.mk "src/Bad.ts".data badgeFileExample false true]).outcomes.length =
      [FileEntry.mk "src/Good.ts".data badgeFileExample true true,
       FileEntry.mk "src/Bad.ts".data badgeFileExample false true].length ∧
    (FileEntry.mk "src/Bad.ts".data badgeFileExample false true ∈
      [FileEntry.mk "src/Good.ts".data badgeFileExample true true,
       FileEntry.mk "src/Bad.ts".data badgeFileExample false true] →
      errorMsg (FileEntry.mk "src/Bad.ts".data badgeFileExample false true).path ∈
        (mainRun sprint23Patterns true
          [FileEntry.mk "src/Good.ts".data badgeFileExample true true,
           FileEntry.mk "src/Bad.ts".data badgeFileExample false true]).messages)) :=
  ⟨Or.inl rfl,
    claim_C4_failure_isolation sprint23Patterns
      [FileEntry.mk "src/Good.ts".data badgeFileExample true true,
       FileEntry.mk "src/Bad.ts".data badgeFileExample false true]
      (FileEntry.mk "src/Bad.ts".data badgeFileExample false true) (Or.inl rfl)⟩

/-- C5: a run against a missing root directory produces exactly one
message naming the missing path, an empty changed set, no per-file
processing (hence no file mutation), and returns normally with that
result. -/
theorem claim_C5_missing_root (rules : List Rule) (fs : List FileEntry) :
    mainRun rules false fs = ⟨[missingRootMsg], [], []⟩ ∧
    (mainRun rules false fs).messages.length = 1 ∧
    missingRootMsg = "Directory not found: ".data ++ rootPath ∧
    (mainRun rules false fs).changedPaths = [] ∧
    (mainRun rules false fs).outcomes = [] :=
  ⟨rfl, rfl, rfl, rfl, rfl⟩

/-- C6: any file whose content contains the badge import (with
arbitrary surrounding text) is changed by the sprint 2.3 rule set and
no badge import survives in the result; on the concrete scenario files
the import is replaced exactly by the consolidated import and the
unrelated-thing file is left byte-identical and reported unchanged. -/
theorem claim_C6_badge_scenario :
    (∀ u v : List Char,
      applyRules sprint23Patterns (u ++ (badgeImport ++ v)) ≠ u ++ (badgeImport ++ v)) ∧
    (∀ u v : List Char,
      cleanR badgeRule (applyRules sprint23Patterns (u ++ (badgeImport ++ v)))) ∧
    applyRules sprint23Patterns badgeFileExample = badgeFileExpected ∧
    updateFile sprint23Patterns (FileEntry.mk "src/A.tsx".data badgeFileExample true true) =
      ⟨true, some badgeFileExpected, false⟩ ∧
    applyRules sprint23Patterns unrelatedFileExample = unrelatedFileExample ∧
    updateFile sprint23Patterns (FileEntry.mk "src/B.tsx".data unrelatedFileExample true true) =
      ⟨false, none, false⟩ := by
  refine ⟨?_, ?_, by decide, by decide, by decide, by decide⟩
  · intro u v hEq
    have hm : matchRule badgeRule ((u ++ (badgeImport ++ v)).drop u.length) = some v := by
      rw [List.drop_left]
      exact badgeImport_match v
    have hlt : (reSub badgeRule (u ++ (badgeImport ++ v))).length <
        (u ++ (badgeImport ++ v)).length :=
      reSub_length_lt (by decide) hm
    have hle : (applyRules [alertRule, labelRule, textareaRule, selectRule]
        (reSub badgeRule (u ++ (badgeImport ++ v)))).length ≤
        (reSub badgeRule (u ++ (badgeImport ++ v))).length :=
      applyRules_length_le _ (by decide) _
    have hfin : (applyRules sprint23Patterns (u ++ (badgeImport ++ v))).length <
        (u ++ (badgeImport ++ v)).length := by
      rw [show sprint23Patterns =
        badgeRule :: [alertRule, labelRule, textareaRule, selectRule] from rfl,
        applyRules_cons]
      omega
    rw [hEq] at hfin
    omega
  · intro u v
    exact applyRules_clean sprint23_rulesOk (u ++ (badgeImport ++ v)) badgeRule
      (by decide)

/-- C7: the concrete file holding both a badge and a select legacy
reference has both occurrences replaced by the consolidated import, and
its path appears exactly once in the updated_files list of the run. -/
theorem claim_C7_multi_rule :
    applyRules sprint23Patterns bothImportsEntry.content = bothImportsExpected ∧
    (mainRun sprint23Patterns true [bothImportsEntry]).changedPaths =
      [bothImportsEntry.path] ∧
    (mainRun sprint23Patterns true [bothImportsEntry]).changedPaths.count
      bothImportsEntry.path = 1 ∧
    (mainRun sprint23Patterns true [bothImportsEntry]).outcomes =
      [⟨true, some bothImportsExpected, false⟩] := by
  exact ⟨by decide, by decide, by decide, by decide⟩

/-- C8: reading never fails on malformed bytes: the strict decoder is
refined by the lenient one wherever it succeeds, reading always
returns the leniently decoded text, a malformed byte string decodes by
dropping the offending byte where the strict decoder rejects it, and
pattern substitution then proceeds on the decoded text. -/
theorem claim_C8_decode_leniency :
    (∀ (bs s : List Nat), decodeStrictCp bs = some s → decodeLenientCp bs = s) ∧
    (∀ bs : List Nat, readFileLenient bs = some ((decodeLenientCp bs).map Char.ofNat)) ∧
    decodeStrictCp [0x66, 0xFF, 0x6F] = none ∧
    decodeLenientCp [0x66, 0xFF, 0x6F] = [0x66, 0x6F] ∧
    rewriteBytes sprint23Patterns
      ([0xFF] ++ "from \x27@/components/ui/badge\x27".data.map Char.toNat) =
      "from \x27@jade/ui/components\x27".data := by
  refine ⟨?_, fun _ => rfl, by decide, by decide, by decide⟩
  intro bs s h
  exact decodeCore_agrees bs.length bs s h

/-- C8 witness: the refinement conjunct instantiated on a concrete
well-formed byte string. -/
theorem claim_C8_decode_leniency_witness :
    decodeStrictCp [0x61, 0x62] = some [0x61, 0x62] ∧
    decodeLenientCp [0x61, 0x62] = [0x61, 0x62] :=
  ⟨by decide, claim_C8_decode_leniency.1 [0x61, 0x62] [0x61, 0x62] (by decide)⟩

/-- C9: the run is deterministic: the per-file rewrite is a pure
function of the content and the rule table, and two runs over equal
input trees produce equal results (same changed paths, same outcomes,
same messages). -/
theorem claim_C9_determinism (rules : List Rule) (b : Bool) (fs gs : List FileEntry)
    (h : fs = gs) :
    mainRun rules b fs = mainRun rules b gs ∧
    (∀ e1 e2 : FileEntry, e1.content = e2.content → e1.readOk = e2.readOk →
      e1.writeOk = e2.writeOk →
      applyRules rules e1.content = applyRules rules e2.content ∧
      updateFile rules e1 = updateFile rules e2) := by
  subst h
  refine ⟨rfl, ?_⟩
  intro e1 e2 hc hrd hw
  refine ⟨by rw [hc], ?_⟩
  unfold updateFile
  rw [hc, hrd, hw]

/-- C9 witness: determinism instantiated on a concrete run. -/
theorem claim_C9_determinism_witness :
    mainRun sprint23Patterns true [bothImportsEntry] =
      mainRun sprint23Patterns true [bothImportsEntry] ∧
    (∀ e1 e2 : FileEntry, e1.content = e2.content → e1.readOk = e2.readOk →
      e1.writeOk = e2.writeOk →
      applyRules sprint23Patterns e1.content = applyRules sprint23Patterns e2.content ∧
      updateFile sprint23Patterns e1 = updateFile sprint23Patterns e2) :=
  claim_C9_determinism sprint23Patterns true [bothImportsEntry] [bothImportsEntry] rfl

/-- C10: every pattern of both scripts demands a quote character
immediately after the component path, so a module path that merely
extends a listed component name never matches, and the concrete
extended-path files are left unchanged by both scripts. -/
theorem claim_C10_boundary :
    (∀ r ∈ sprint23Patterns ++ sprint24Patterns, ∀ (q1 c : Char) (t : List Char),
      isQuote q1 = true → isQuote c = false →
      matchRule r (r.pre ++ q1 :: (r.path ++ c :: t)) = none) ∧
    applyRules sprint23Patterns exBadgeIndex = exBadgeIndex ∧
    applyRules sprint24Patterns exBadgeIndex = exBadgeIndex ∧
    applyRules sprint23Patterns exSelector = exSelector ∧
    applyRules sprint24Patterns exSelector = exSelector ∧
    applyRules sprint23Patterns exTabsExtra = exTabsExtra ∧
    applyRules sprint24Patterns exTabsExtra = exTabsExtra := by
  refine ⟨?_, by decide, by decide, by decide, by decide, by decide, by decide⟩
  intro r _ q1 c t hq hc
  cases hm : matchRule r (r.pre ++ q1 :: (r.path ++ c :: t)) with
  | none => rfl
  | some rest =>
    exfalso
    obtain ⟨q1x, q2x, hq1x, hq2x, heq⟩ := matchRule_shape.1 hm
    have h1 : q1 :: (r.path ++ c :: t) = q1x :: (r.path ++ q2x :: rest) :=
      List.append_cancel_left heq
    have h2 : r.path ++ c :: t = r.path ++ q2x :: rest := (List.cons.inj h1).2
    have h3 : c :: t = q2x :: rest := List.append_cancel_left h2
    have h4 : c = q2x := (List.cons.inj h3).1
    rw [h4, hq2x] at hc
    cases hc

/-- C10 witness: the boundary fact instantiated on the badge rule with
a slash following the component name. -/
theorem claim_C10_boundary_witness :
    badgeRule ∈ sprint23Patterns ++ sprint24Patterns ∧
    isQuote '\x27' = true ∧
    isQuote '/' = false ∧
    matchRule badgeRule (badgeRule.pre ++ '\x27' :: (badgeRule.path ++ '/' :: [])) = none :=
  ⟨by decide, by decide, by decide,
    claim_C10_boundary.1 badgeRule (by decide) '\x27' '/' [] (by decide) (by decide)⟩

end JadeImports
